import Mathlib

/-!
Verification development for `CausalNex/Preprocessing.py`.

The embedding models the numeric pipeline over exact rationals (`ℚ`):
every arithmetic step of the Python code is real-valued and is translated
literally, ignoring floating-point rounding.  A float that is NaN or
infinite makes Python's `int(...)` conversion raise, so computations whose
result can become non-finite are embedded with `Option`/`Except`, `none`
resp. `.error _` standing for "the call raises".

Source anchors (file `src/CausalNex/Preprocessing.py`):
  * `suggest_bin_count`            lines 144-168
  * `discretize_feature`           lines 292-320 (delegating to
    `pd.cut`, `pd.qcut`, `sklearn.KBinsDiscretizer`)
  * `batch_discretize`             lines 322-349
  * `label_encode_non_numeric`     lines 270-290
-/

set_option maxRecDepth 16000

namespace Preprocessing

/-! ### Elementary numeric helpers -/

/-- Floor of a rational, `⌊q⌋`, computed with flooring integer division
(the denominator of a `Rat` is positive). -/
def qfloor (q : ℚ) : ℤ := q.num.fdiv (q.den : ℤ)

/-- Ceiling of a rational. -/
def qceil (q : ℚ) : ℤ := -(qfloor (-q))

/-- Python `int(x)` on a finite float truncates toward zero. -/
def pyInt (q : ℚ) : ℤ := if 0 ≤ q then qfloor q else qceil q

/-- `int(np.ceil(np.sqrt n))`: the least natural `k` with `k * k ≥ n`
(for `n ≥ 1` the search bound suffices since `n * n ≥ n`). -/
def ceilSqrt (n : ℕ) : ℤ :=
  ((((List.range (n + 1)).find? (fun k : ℕ => decide (n ≤ k * k))).getD n : ℕ) : ℤ)

/-- Least natural `k` with `k ^ e ≥ q`, i.e. the ceiling of the real
`e`-th root of a nonnegative rational `q`.  The search range suffices:
for `q ≤ 1` already `k = 1` works, and for `q > 1` the candidate
`k = ⌈q⌉` satisfies `k ^ e ≥ k ≥ q` (for `e ≥ 1`). -/
def ceilPow (e : ℕ) (q : ℚ) : ℕ :=
  let b := (max 1 (qceil q)).toNat
  (((List.range (b + 1)).find? (fun k : ℕ => decide (q ≤ (k : ℚ) ^ e))).getD b)

/-- `⌈log2 n⌉` for `n ≥ 1`: the least `k` with `2 ^ k ≥ n` (for `n ≥ 1`
the search bound suffices since `2 ^ (n-1) ≥ n`). -/
def ceilLog2 (n : ℕ) : ℕ :=
  (((List.range n).find? (fun k : ℕ => decide (n ≤ 2 ^ k))).getD 0)

/-- Ceiling of the real cube root of a rational. -/
def ceilRt3 (q : ℚ) : ℕ := ceilPow 3 q

/-- Ceiling of the real sixth root of a rational. -/
def ceilRt6 (q : ℚ) : ℕ := ceilPow 6 q

/-- Maximum of a list of rationals (`0` on the empty list, which every
use below guards against). -/
def listMax : List ℚ → ℚ
  | [] => 0
  | x :: t => t.foldl max x

/-- Minimum of a list of rationals. -/
def listMin : List ℚ → ℚ
  | [] => 0
  | x :: t => t.foldl min x

/-- Ascending stable sort, as `np.sort` / pandas sorting. -/
def sortQ (xs : List ℚ) : List ℚ := xs.insertionSort (· ≤ ·)

/-- Linear-interpolation quantile of an already sorted nonempty list at
probability `p ∈ [0,1]`: position `p * (n-1)`, value interpolated between
the two neighbouring order statistics.  This is numpy/pandas
`interpolation='linear'`. -/
def quantileOf (s : List ℚ) (p : ℚ) : ℚ :=
  let n := s.length
  let pos := p * ((n : ℚ) - 1)
  let i := (qfloor pos).toNat
  if i + 1 < n then
    s.getD i 0 + (pos - (i : ℚ)) * (s.getD (i + 1) 0 - s.getD i 0)
  else s.getD (n - 1) 0

/-- `np.percentile(xs, p)` with linear interpolation (`p ∈ [0,100]`). -/
def percentileOf (xs : List ℚ) (p : ℚ) : ℚ := quantileOf (sortQ xs) (p / 100)

/-- `np.median` of a nonempty list: middle order statistic, or the mean of
the two middle ones for an even length. -/
def medianOf (xs : List ℚ) : ℚ :=
  let s := sortQ xs
  let n := s.length
  if n % 2 = 1 then s.getD (n / 2) 0
  else (s.getD (n / 2 - 1) 0 + s.getD (n / 2) 0) / 2

/-- Sample variance with `ddof = 1` (pandas `Series.std` squared):
`Σ (x - mean)² / (n - 1)`.  Only used under a guard `n ≥ 2`. -/
def sampleVar (xs : List ℚ) : ℚ :=
  let n := xs.length
  let μ := xs.sum / (n : ℚ)
  ((xs.map (fun x => (x - μ) ^ 2)).sum) / ((n : ℚ) - 1)

/-! ### `suggest_bin_count` (lines 144-168)

```python
n = len(data_col)
sturges = int(np.ceil(np.log2(n) + 1))
h_scott = 3.5 * data_col.std() / (n ** (1/3))
scott_bins = int(np.ceil((data_col.max() - data_col.min()) / h_scott))
q75, q25 = np.percentile(data_col, [75, 25])
iqr = q75 - q25
h_fd = 2 * iqr / (n ** (1/3))
fd_bins = int(np.ceil((data_col.max() - data_col.min()) / h_fd)) if h_fd > 0 else sturges
sqrt_bins = int(np.ceil(np.sqrt(n)))
suggestions = [sturges, scott_bins, fd_bins, sqrt_bins]
median_suggestion = int(np.median([x for x in suggestions if 3 <= x <= 50]))
return max(3, min(20, median_suggestion))
```

Embedding notes, step by step:
  * `n = 0`: `np.log2(0) = -inf` and `int(-inf)` raises, hence `none`.
  * `sturges`: for `n ≥ 1`, `ceil(log2 n + 1) = ⌈log2 n⌉ + 1 = Nat.clog 2 n + 1`.
  * Scott: `data_col.std()` uses `ddof = 1`, so it is NaN for `n < 2`
    (NaN propagates into `int(...)`, which raises).  For `n ≥ 2` with
    zero variance, `h_scott = 0` and `max - min = 0`, so the ratio is
    `0/0 = NaN` and `int(NaN)` raises.  Otherwise the ratio
    `R = (max-min) * n^(1/3) / (3.5 * sqrt V)` is positive and
    `int(np.ceil(R))` is the least natural `k ≥ R`, equivalently the least
    `k` with `k^6 ≥ R^6`, and `R^6 = (max-min)^6 * n^2 / (3.5^6 * V^3)`
    is rational: `ceilRt6` computes this exactly.
  * Freedman-Diaconis: `h_fd > 0` iff `iqr > 0` (as `n ≥ 1`); then
    `R = (max-min) * n^(1/3) / (2 * iqr)` and
    `R^3 = (max-min)^3 * n / (8 * iqr^3)`, handled by `ceilRt3`;
    otherwise the code falls back to `sturges`.
  * An empty filtered candidate list makes `np.median([])` NaN and the
    final `int(...)` raise, hence `none`. -/
def suggest_bin_count (values : List ℚ) : Option ℤ :=
  let n := values.length
  if n = 0 then none
  else
    let sturges : ℤ := (ceilLog2 n : ℤ) + 1
    let scottCand : Option ℤ :=
      if n < 2 then none
      else if sampleVar values = 0 then none
      else some ((ceilRt6 (((listMax values - listMin values) ^ 6 * (n : ℚ) ^ 2) /
        ((7 / 2 : ℚ) ^ 6 * (sampleVar values) ^ 3)) : ℕ) : ℤ)
    match scottCand with
    | none => none
    | some scott =>
      let iqr := percentileOf values 75 - percentileOf values 25
      let fd : ℤ :=
        if 0 < iqr then
          ((ceilRt3 (((listMax values - listMin values) ^ 3 * (n : ℚ)) / (8 * iqr ^ 3)) : ℕ) : ℤ)
        else sturges
      let sqrtBins : ℤ := ceilSqrt n
      let suggestions : List ℤ := [sturges, scott, fd, sqrtBins]
      let filtered := suggestions.filter (fun x => decide (3 ≤ x ∧ x ≤ 50))
      if filtered = [] then none
      else some (max 3 (min 20 (pyInt (medianOf (filtered.map (fun z : ℤ => (z : ℚ)))))))

/-! ### `discretize_feature` (lines 292-320)

A feature column is a `List (Option ℚ)`, `none` standing for a missing
value (NaN).  A bucket assignment is a `List (Option ℤ)`, `none` standing
for the missing-marker (`pd.cut`/`pd.qcut` with `labels=False` put NaN at
masked positions).  The function delegates to `pd.cut`, `pd.qcut` and
`sklearn.preprocessing.KBinsDiscretizer`; those library routines are what
actually decides the claims, so their (documented, stable) semantics is
embedded below, following `pandas/core/reshape/tile.py` and
`sklearn/preprocessing/_discretization.py`. -/

/-- Errors raised inside `discretize_feature`.  Python raises distinct
`ValueError`s; only the identity of the raising site matters here.
`invalidMethod` is the repository's own
`ValueError("Invalid method or missing custom_bins")` (line 320). -/
inductive DErr where
  | invalidMethod
  | binsNonPositive
  | emptyArray
  | binsNotMonotonic
  | duplicateEdges
  | invalidNBins
  | nanInput
  | tooFewSamples
  deriving DecidableEq, Repr

/-- First-occurrence deduplication, as pandas `algos.unique`
(order of first appearance is kept). -/
def firstUniques {α : Type} [DecidableEq α] : List α → List α → List α
  | _, [] => []
  | seen, x :: t =>
    if x ∈ seen then firstUniques seen t else x :: firstUniques (x :: seen) t

/-- `pandas.unique` on a list. -/
def pdUnique {α : Type} [DecidableEq α] (l : List α) : List α := firstUniques [] l

/-- `bins.searchsorted(v, side='left')` on a sorted edge array equals the
number of edges strictly below `v`; afterwards `include_lowest` rewrites
the id to `1` wherever `v` equals `bins[0]`
(`ids[np.asarray(x) == bins[0]] = 1` in `_bins_to_cuts`). -/
def cutIds (bins : List ℚ) (il : Bool) (v : ℚ) : ℕ :=
  match bins with
  | [] => 0
  | b0 :: _ =>
    if il = true ∧ v = b0 then 1
    else bins.countP (fun e => decide (e < v))

/-- The assignment step of `_bins_to_cuts` with `labels=False`:
`ids = searchsorted(...)`, `na_mask = isna(x) | (ids == len(bins)) |
(ids == 0)`, result `ids - 1` with NaN at masked positions. -/
def applyCut (bins : List ℚ) (il : Bool) (col : List (Option ℚ)) : List (Option ℤ) :=
  col.map (fun o =>
    match o with
    | none => none
    | some v =>
      let ids := cutIds bins il v
      if ids = 0 ∨ ids = bins.length then none else some ((ids : ℤ) - 1))

/-- `_bins_to_cuts`: duplicate edges are an error (`duplicates='raise'`,
used by `pd.cut`) or are dropped (`duplicates='drop'`, used here by
`pd.qcut`) — but, verbatim from pandas, only when `len(bins) != 2`:

```python
unique_bins = unique(bins)
if len(unique_bins) < len(bins) and len(bins) != 2:
    if duplicates == "raise": raise ValueError(...)
    bins = unique_bins
```
-/
def binsToCuts (dropDup : Bool) (bins : List ℚ) (il : Bool)
    (col : List (Option ℚ)) : Except DErr (List (Option ℤ)) :=
  let ub := pdUnique bins
  if ub.length < bins.length ∧ bins.length ≠ 2 then
    if dropDup then .ok (applyCut ub il col) else .error .duplicateEdges
  else .ok (applyCut bins il col)

/-- `np.linspace(a, b, k+1, endpoint=True)` in exact arithmetic. -/
def linspace (a b : ℚ) (k : ℕ) : List ℚ :=
  (List.range (k + 1)).map (fun i : ℕ => a + (i : ℚ) * (b - a) / (k : ℚ))

/-- The edge array `pd.cut` builds internally for an integer `bins=k`
argument, given the non-missing values `xs` (from
`pandas/core/reshape/tile.py::_nbins_to_bins`):

```python
mn, mx = rng  # nan-skipping min and max
if mn == mx:  # adjust end points before binning
    mn -= 0.001 * abs(mn) if mn != 0 else 0.001
    mx += 0.001 * abs(mx) if mx != 0 else 0.001
    bins = np.linspace(mn, mx, bins + 1, endpoint=True)
else:  # adjust end points after binning
    bins = np.linspace(mn, mx, bins + 1, endpoint=True)
    adj = (mx - mn) * 0.001  # 0.1% of the range
    bins[0] -= adj           # right == True
```
-/
def ewBins (xs : List ℚ) (k : ℕ) : List ℚ :=
  let mn := listMin xs
  let mx := listMax xs
  if mn = mx then
    let mn' := if mn = 0 then mn - 1 / 1000 else mn - |mn| / 1000
    let mx' := if mx = 0 then mx + 1 / 1000 else mx + |mx| / 1000
    linspace mn' mx' k
  else
    match linspace mn mx k with
    | [] => []
    | e0 :: rest => (e0 - (mx - mn) / 1000) :: rest

/-- `pd.cut(col, bins=k, labels=False)` for an integer `k`.  `pd.cut`
raises for `k < 1` and for an empty (zero-length) input.  A column whose
entries are all missing has NaN min and max; `NaN == NaN` is false, so
the non-degenerate branch builds `k+1` identical NaN edges, which
pandas' `unique` collapses to one inside `_bins_to_cuts`: with
`duplicates='raise'` this raises `ValueError("Bin edges must be
unique")` whenever `len(bins) != 2`, i.e. for every `k ≥ 2`; only
`k = 1` is exempt, and there every position is masked. -/
def pdCutScalar (col : List (Option ℚ)) (k : ℤ) : Except DErr (List (Option ℤ)) :=
  if k < 1 then .error .binsNonPositive
  else if col = [] then .error .emptyArray
  else
    let xs := col.filterMap id
    if xs = [] then
      if k = 1 then .ok (col.map (fun _ => none)) else .error .duplicateEdges
    else binsToCuts false (ewBins xs k.toNat) false col

/-- `pd.cut(col, bins=edges, labels=False)` for an explicit edge list:
pandas only rejects edges that fail `is_monotonic_increasing`
(non-decreasing, adjacent comparisons; duplicates are caught later in
`_bins_to_cuts`). -/
def pdCutList (col : List (Option ℚ)) (bins : List ℚ) : Except DErr (List (Option ℤ)) :=
  if List.Pairwise (· ≤ ·) bins then binsToCuts false bins false col
  else .error .binsNotMonotonic

/-- `pd.qcut(col, q=k, labels=False, duplicates='drop')`: quantile edges
at probabilities `0, 1/q, ..., 1` (linear interpolation over the
non-missing values), then `_bins_to_cuts` with `include_lowest=True` and
`duplicates='drop'`.  `np.linspace(0, 1, q+1)` raises for `q < 0`; for a
column with no non-missing value the quantiles are NaN and every position
is masked. -/
def pdQcut (col : List (Option ℚ)) (q : ℤ) : Except DErr (List (Option ℤ)) :=
  if q < 0 then .error .invalidNBins
  else
    let xs := col.filterMap id
    if xs = [] then .ok (col.map (fun _ => none))
    else
      let s := sortQ xs
      let probs : List ℚ :=
        if q = 0 then [0]
        else (List.range (q.toNat + 1)).map (fun i : ℕ => (i : ℚ) / (q : ℚ))
      binsToCuts true (probs.map (quantileOf s)) true col

/-- Index of the nearest centre (first one on ties, as `np.argmin`). -/
def nearestIdx (cs : List ℚ) (v : ℚ) : ℕ :=
  ((cs.enum.foldl (fun best p => if |v - p.2| < |v - best.2| then p else best)
    ((0 : ℕ), cs.headD 0))).1

/-- One Lloyd update of centre `j`: mean of the points assigned to it
(the centre is kept if no point is assigned). -/
def clusterMean (xs cs : List ℚ) (j : ℕ) : ℚ :=
  let cl := xs.filter (fun x => nearestIdx cs x == j)
  if cl.length = 0 then cs.getD j 0 else cl.sum / (cl.length : ℚ)

/-- Lloyd iteration with fuel (sklearn `KMeans` stops after `max_iter=300`
rounds or at a fixed point). -/
def lloyd : ℕ → List ℚ → List ℚ → List ℚ
  | 0, _, cs => cs
  | fuel + 1, xs, cs =>
    let cs' := (List.range cs.length).map (clusterMean xs cs)
    if cs' = cs then cs else lloyd fuel xs cs'

/-- Model of `KBinsDiscretizer(n_bins=k, encode='ordinal',
strategy='kmeans').fit_transform(column)`:
  * `check_array` rejects any NaN in the input — this is the
    claim-relevant behaviour: missing values make the call raise;
  * `_validate_n_bins` requires `k ≥ 2`, and `KMeans` requires at least
    `k` samples;
  * a constant column collapses to a single bin (everything bucket 0);
  * otherwise: deterministic initialisation at the midpoints of the
    uniform edges, Lloyd iteration, centres sorted ascending, bin edges
    at midpoints of consecutive centres, and `transform` assigns
    `np.searchsorted(edges[1:-1], v, side='right')`, i.e. the number of
    interior edges `≤ v`.  Exact rational arithmetic stands in for float
    arithmetic, and sklearn's relocation of emptied clusters is not
    modelled — no claim depends on the k-means bucket values, only on the
    validation behaviour. -/
def kbinsKmeans (col : List (Option ℚ)) (k : ℤ) : Except DErr (List (Option ℤ)) :=
  if col.any (fun o => o.isNone) then .error .nanInput
  else
    let xs := col.filterMap id
    if k < 2 then .error .invalidNBins
    else if xs.length < k.toNat then .error .tooFewSamples
    else
      let mn := listMin xs
      let mx := listMax xs
      if mn = mx then .ok (col.map (fun _ => some 0))
      else
        let kk := k.toNat
        let ue := linspace mn mx kk
        let init := (List.range kk).map (fun i => (ue.getD i 0 + ue.getD (i + 1) 0) / 2)
        let cs := sortQ (lloyd 300 xs init)
        let edges := (List.range (kk - 1)).map (fun i => (cs.getD i 0 + cs.getD (i + 1) 0) / 2)
        .ok (col.map (Option.map (fun v => ((edges.countP (fun e => decide (e ≤ v))) : ℤ))))

/-- Embedding of `discretize_feature` (lines 292-320).  The Python function
receives the whole frame plus a feature name and immediately selects
`data[feature]`; the embedding takes the selected column.  The dispatch is
the literal `if/elif` chain; note that the `custom` branch additionally
requires `custom_bins` to be truthy (neither `None` nor `[]`), otherwise
control falls through to `raise ValueError("Invalid method or missing
custom_bins")`. -/
def discretize_feature (col : List (Option ℚ)) (method : String) (n_bins : ℤ)
    (custom_bins : Option (List ℚ)) : Except DErr (List (Option ℤ)) :=
  if method = "equal_width" then pdCutScalar col n_bins
  else if method = "equal_frequency" then pdQcut col n_bins
  else if method = "kmeans" then kbinsKmeans col n_bins
  else if method = "custom" ∧ custom_bins.getD [] ≠ [] then
    pdCutList col (custom_bins.getD [])
  else .error .invalidMethod

deriving instance DecidableEq for Except

/-! ### `batch_discretize` (lines 322-349)

A table is a list of named columns (a frame with unique column names);
the per-feature configuration record carries the keyword arguments passed
through `**config` (with `discretize_feature`'s defaults
`method='equal_width'`, `n_bins=5`, `custom_bins=None` for omitted keys).
The discretized column (float bucket ids in pandas) is stored back over ℚ.
-/

/-- A named-column table; column values live in `Option ℚ`
(`none` = missing). -/
abbrev Table : Type := List (String × List (Option ℚ))

/-- One feature's entry of `features_config`, already merged with the
defaults of `discretize_feature`. -/
structure FeatCfg where
  method : String
  n_bins : ℤ
  custom_bins : Option (List ℚ)
  deriving DecidableEq

/-- `data[name]` (the empty column for an absent name; callers guard by
`name in data.columns`). -/
def lookupCol (t : Table) (name : String) : List (Option ℚ) :=
  ((t.find? (fun p => p.1 == name)).map (fun p => p.2)).getD []

/-- `result_data[name] = col` for an existing column `name`. -/
def setCol (t : Table) (name : String) (col : List (Option ℚ)) : Table :=
  t.map (fun p => if p.1 = name then (p.1, col) else p)

/-- Bucket ids are written back into the (float-valued) frame. -/
def castCol (l : List (Option ℤ)) : List (Option ℚ) :=
  l.map (Option.map (fun b : ℤ => (b : ℚ)))

/-- The loop of `batch_discretize`: `data` is the caller's frame, read on
every iteration; `acc` is `result_data`, the copy that gets overwritten.

```python
result_data = data.copy()
for feature, config in features_config.items():
    if feature in data.columns:
        result_data[feature] = self.discretize_feature(data, feature, **config)
return result_data
```

A feature absent from `data.columns` is skipped silently; an exception
inside `discretize_feature` propagates to the caller. -/
def batchGo (data : Table) : Table → List (String × FeatCfg) → Except DErr Table
  | acc, [] => .ok acc
  | acc, (f, c) :: rest =>
    if f ∈ data.map (fun p => p.1) then
      match discretize_feature (lookupCol data f) c.method c.n_bins c.custom_bins with
      | .error e => .error e
      | .ok out => batchGo data (setCol acc f (castCol out)) rest
    else batchGo data acc rest

/-- Embedding of `batch_discretize` (lines 322-349). -/
def batch_discretize (data : Table) (cfg : List (String × FeatCfg)) : Except DErr Table :=
  batchGo data data cfg

/-! ### `label_encode_non_numeric` (lines 270-290)

```python
df_encoded = df.copy()
non_numeric_columns = list(df.select_dtypes(exclude=[np.number]).columns)
for col in non_numeric_columns:
    le = LabelEncoder()
    df_encoded[col] = le.fit_transform(df_encoded[col].astype(str))
    self.label_encoders[col] = le
```

A non-numeric column is a `List (Option String)` (`none` = NaN).
`.astype(str)` turns NaN into the literal string `"nan"`;
`LabelEncoder.fit_transform` assigns each string its index in the sorted
list of distinct values (`np.unique`). -/

/-- The distinct stringified values of a column, sorted ascending —
`LabelEncoder.classes_`. -/
def leClasses (col : List (Option String)) : List String :=
  (pdUnique (col.map (fun o => o.getD "nan"))).insertionSort (· ≤ ·)

/-- `LabelEncoder().fit_transform(col.astype(str))` on one column. -/
def label_encode_column (col : List (Option String)) : List ℕ :=
  (col.map (fun o => o.getD "nan")).map (fun s => (leClasses col).indexOf s)

/-- Embedding of `label_encode_non_numeric` (lines 270-290), restricted to
the non-numeric columns it actually transforms (numeric columns pass
through untouched; the returned encoder dictionary is the per-column
class list `leClasses`). -/
def label_encode_non_numeric (t : List (String × List (Option String))) :
    List (String × List ℕ) :=
  t.map (fun p => (p.1, label_encode_column p.2))

/-! ### Claim C1 -/

/-- Claim C1 (amended): whenever `suggest_bin_count` returns rather than
raising, the returned integer lies in the inclusive range [3, 20].  (As
stated, the claim is false: the function can raise on degenerate
non-empty inputs — see `c1_counterexample`.) -/
theorem c1_clamped_when_returns (values : List ℚ) (k : ℤ)
    (h : suggest_bin_count values = some k) : 3 ≤ k ∧ k ≤ 20 := by
  simp only [suggest_bin_count] at h
  split at h
  · exact Option.noConfusion h
  · split at h
    · exact Option.noConfusion h
    · split at h <;> split at h <;>
        first
          | exact Option.noConfusion h
          | · rw [Option.some_inj] at h
              subst h
              exact ⟨le_max_left _ _, max_le (by norm_num) (min_le_left _ _)⟩

/-- Witness for C1: on `[0, 1, 2, 10]` the function returns `3`, which the
theorem places in [3, 20]. -/
theorem c1_clamped_when_returns_witness :
    suggest_bin_count [0, 1, 2, 10] = some 3 ∧ (3 ≤ (3 : ℤ) ∧ (3 : ℤ) ≤ 20) :=
  ⟨by with_unfolding_all decide,
   c1_clamped_when_returns [0, 1, 2, 10] 3 (by with_unfolding_all decide)⟩

/-- Counterexample to C1 as stated: `[5]` is a non-empty numeric sequence
with no missing entries, yet `suggest_bin_count` raises instead of
returning an integer in [3, 20]: `data_col.std()` is NaN for a single
element (`ddof=1`), the NaN propagates through Scott's rule and
`int(np.ceil(NaN))` raises `ValueError`. -/
theorem c1_counterexample : suggest_bin_count [5] = none := by
  with_unfolding_all decide

/-! ### Claim C2 -/

/-- Claim C2: evaluation of the embedded `suggest_bin_count` at the
spec's example `[10, 10, 10, 10]`.  The claim (and the spec) say the
zero-variance case skips Scott's heuristic and returns 3; the code has no
such guard: `h_scott = 3.5 * 0 / n**(1/3) = 0`, `(max - min) / h_scott =
0/0 = NaN`, and `int(np.ceil(NaN))` raises `ValueError` — the code never
returns.  (Only Freedman-Diaconis has the `if h_fd > 0 else sturges`
fallback, line 159; the analogous guard for Scott, described by the spec,
is missing at line 153.) -/
theorem c2_zero_variance_raises : suggest_bin_count [10, 10, 10, 10] = none := by
  with_unfolding_all decide

/-! ### Claim C4 -/

/-- Claim C4 (amended): for `[1..10]` with equal-width strategy and
`n_bins = 5` the computed edge grid is `[1, 2.8, 4.6, 6.4, 8.2, 10]`
(before `pd.cut` lowers the first edge by 0.1% of the range), and the
bucket assignment is `[0,0,1,1,2,2,3,3,4,4]`: `pd.cut` bins into
left-open right-closed intervals `(edge[i], edge[i+1]]` with the lowest
edge extended, not `[edge[i], edge[i+1])` intervals. -/
theorem c4_example_equal_width :
    linspace 1 10 5 = [1, 2.8, 4.6, 6.4, 8.2, 10] ∧
    ewBins [1, 2, 3, 4, 5, 6, 7, 8, 9, 10] 5 =
      [0.991, 2.8, 4.6, 6.4, 8.2, 10] ∧
    discretize_feature [some 1, some 2, some 3, some 4, some 5, some 6, some 7,
      some 8, some 9, some 10] "equal_width" 5 none =
      .ok [some 0, some 0, some 1, some 1, some 2, some 2, some 3, some 3,
        some 4, some 4] := by
  refine ⟨by with_unfolding_all decide, by with_unfolding_all decide, ?_⟩
  with_unfolding_all decide

/-- Counterexample to C4 as stated: the bucket assignment is not
`[0,0,1,2,3,3,4,4,4,4]`. -/
theorem c4_counterexample :
    discretize_feature [some 1, some 2, some 3, some 4, some 5, some 6, some 7,
      some 8, some 9, some 10] "equal_width" 5 none ≠
      .ok [some 0, some 0, some 1, some 2, some 3, some 3, some 4, some 4,
        some 4, some 4] := by
  with_unfolding_all decide

/-! ### Counterexamples for C3, C5, C6, C7 -/

/-- Counterexample to C3 as stated: for the constant column `[7, 7, 7]`
(`min == max`) with `n_bins = 3`, every value lands in the middle bucket
1, not in bucket 0: the degenerate branch of `pd.cut` widens the range to
`[min - 0.001*|min|, min + 0.001*|min|]` and the values sit at its centre. -/
theorem c3_counterexample :
    discretize_feature [some 7, some 7, some 7] "equal_width" 3 none =
      .ok [some 1, some 1, some 1] ∧
    discretize_feature [some 7, some 7, some 7] "equal_width" 3 none ≠
      .ok [some 0, some 0, some 0] := by
  refine ⟨by with_unfolding_all decide, ?_⟩
  with_unfolding_all decide

/-- Counterexample to C5 as stated: for the spec's own example column
`[1, 2, null, 4, 5]` the kmeans strategy does not place a missing-marker —
`sklearn`'s input validation rejects NaN and the call raises, producing no
output at all. -/
theorem c5_counterexample :
    discretize_feature [some 1, some 2, none, some 4, some 5] "kmeans" 5 none =
      .error .nanInput := by
  with_unfolding_all decide

/-- Counterexample to C6 as stated: feeding the equal-width edge grid
`linspace 1 10 5 = [1, 2.8, ..., 10]` back through the custom strategy
does not reproduce the equal-width assignment — the minimum value `1` is
not strictly above the first edge, so `pd.cut` masks it as missing
(equal-width avoids this by lowering its first internal edge by 0.1% of
the range). -/
theorem c6_counterexample :
    discretize_feature [some 1, some 2, some 3, some 4, some 5, some 6, some 7,
      some 8, some 9, some 10] "custom" 5 (some (linspace 1 10 5)) =
      .ok [none, some 0, some 1, some 1, some 2, some 2, some 3, some 3,
        some 4, some 4] ∧
    discretize_feature [some 1, some 2, some 3, some 4, some 5, some 6, some 7,
      some 8, some 9, some 10] "custom" 5 (some (linspace 1 10 5)) ≠
    discretize_feature [some 1, some 2, some 3, some 4, some 5, some 6, some 7,
      some 8, some 9, some 10] "equal_width" 5 none := by
  refine ⟨by with_unfolding_all decide, ?_⟩
  with_unfolding_all decide

/-! ### Claim C7 -/

theorem binsToCuts_ne_invalidMethod (d : Bool) (bins : List ℚ) (il : Bool)
    (col : List (Option ℚ)) : binsToCuts d bins il col ≠ .error .invalidMethod := by
  unfold binsToCuts
  dsimp only
  split
  · split <;> simp
  · simp

theorem pdCutScalar_ne_invalidMethod (col : List (Option ℚ)) (k : ℤ) :
    pdCutScalar col k ≠ .error .invalidMethod := by
  unfold pdCutScalar
  dsimp only
  split
  · simp
  · split
    · simp
    · split
      · split <;> simp
      · exact binsToCuts_ne_invalidMethod _ _ _ _

theorem pdQcut_ne_invalidMethod (col : List (Option ℚ)) (q : ℤ) :
    pdQcut col q ≠ .error .invalidMethod := by
  unfold pdQcut
  dsimp only
  split
  · simp
  · split
    · simp
    · exact binsToCuts_ne_invalidMethod _ _ _ _

theorem kbinsKmeans_ne_invalidMethod (col : List (Option ℚ)) (k : ℤ) :
    kbinsKmeans col k ≠ .error .invalidMethod := by
  unfold kbinsKmeans
  dsimp only
  split
  · simp
  · split
    · simp
    · split
      · simp
      · split <;> simp

theorem pdCutList_ne_invalidMethod (col : List (Option ℚ)) (bins : List ℚ) :
    pdCutList col bins ≠ .error .invalidMethod := by
  unfold pdCutList
  split
  · exact binsToCuts_ne_invalidMethod _ _ _ _
  · simp

/-- Claim C7 (amended): `discretize_feature` raises its own
`ValueError("Invalid method or missing custom_bins")` exactly when the
strategy name is unknown, or the strategy is `custom` with absent or
empty `custom_bins`.  (As stated the claim is false: edges that are
provided but not strictly increasing are not covered by this error —
decreasing or duplicated edge lists are rejected with distinct errors
inside `pd.cut`, and a length-2 list of equal edges is accepted and
silently yields an all-missing column, see `c7_counterexample`; those
pandas errors, like this one, propagate immediately with no retry and no
partial result.) -/
theorem c7_invalid_method_iff (col : List (Option ℚ)) (method : String)
    (n_bins : ℤ) (custom_bins : Option (List ℚ)) :
    discretize_feature col method n_bins custom_bins = .error .invalidMethod ↔
      (¬ (method = "equal_width" ∨ method = "equal_frequency" ∨
          method = "kmeans" ∨ method = "custom")) ∨
      (method = "custom" ∧ (custom_bins = none ∨ custom_bins = some [])) := by
  unfold discretize_feature
  by_cases h1 : method = "equal_width"
  · simp [h1, pdCutScalar_ne_invalidMethod]
  by_cases h2 : method = "equal_frequency"
  · simp [h2, pdQcut_ne_invalidMethod]
  by_cases h3 : method = "kmeans"
  · simp [h3, kbinsKmeans_ne_invalidMethod]
  by_cases h4 : method = "custom"
  · subst h4
    match custom_bins with
    | none => simp [h1, h2, h3]
    | some [] => simp [h1, h2, h3]
    | some (b :: bs) => simp [h1, h2, h3, pdCutList_ne_invalidMethod]
  · simp [h1, h2, h3, h4]

/-- Counterexample to C7 as stated: the custom edge list `[5, 5]` is not
strictly increasing, yet `discretize_feature` raises nothing — pandas
accepts it (`is_monotonic_increasing` is non-strict, and `_bins_to_cuts`
exempts length-2 edge lists from the duplicate check) and silently
returns an all-missing column. -/
theorem c7_counterexample :
    discretize_feature [some 4, some 5, some 6] "custom" 5 (some [5, 5]) =
      .ok [none, none, none] ∧
    ¬ List.Pairwise (· < ·) [(5 : ℚ), 5] := by
  refine ⟨by with_unfolding_all decide, ?_⟩
  with_unfolding_all decide

/-! ### Claim C8 -/

/-- Claim C8: a configuration entry naming a feature absent from the
dataset's columns is skipped silently — `batch_discretize` returns exactly
what it would return had that entry not been in the configuration (each
present feature is discretized from the caller's original `data`, so the
skipped entry influences nothing). -/
theorem c8_absent_feature_skipped (data : Table) (cfg : List (String × FeatCfg))
    (f : String) (hf : f ∉ data.map (fun p => p.1)) :
    batch_discretize data cfg =
      batch_discretize data (cfg.filter (fun p => p.1 ≠ f)) := by
  unfold batch_discretize
  suffices H : ∀ acc, batchGo data acc cfg =
      batchGo data acc (cfg.filter (fun p => p.1 ≠ f)) from H data
  intro acc
  induction cfg generalizing acc with
  | nil => rfl
  | cons e rest ih =>
    obtain ⟨g, c⟩ := e
    by_cases hg : g = f
    · have hfil : ((g, c) :: rest).filter (fun p => p.1 ≠ f) =
          rest.filter (fun p => p.1 ≠ f) := by simp [hg]
      have hmem : g ∉ data.map (fun p => p.1) := hg ▸ hf
      rw [hfil, batchGo, if_neg hmem]
      exact ih acc
    · have hfil : ((g, c) :: rest).filter (fun p => p.1 ≠ f) =
          (g, c) :: rest.filter (fun p => p.1 ≠ f) := by simp [hg]
      rw [hfil, batchGo, batchGo]
      split
      · split
        · rfl
        · exact ih _
      · exact ih acc

/-- Witness for C8 at concrete inputs. -/
theorem c8_absent_feature_skipped_witness :
    "b" ∉ ([("a", [some (1 : ℚ)])] : Table).map (fun p => p.1) ∧
    batch_discretize [("a", [some (1 : ℚ)])]
        [("b", FeatCfg.mk "equal_width" 5 none), ("a", FeatCfg.mk "equal_width" 1 none)] =
      batch_discretize [("a", [some (1 : ℚ)])]
        ([("b", FeatCfg.mk "equal_width" 5 none), ("a", FeatCfg.mk "equal_width" 1 none)].filter
          (fun p => p.1 ≠ "b")) :=
  ⟨by with_unfolding_all decide,
   c8_absent_feature_skipped [("a", [some (1 : ℚ)])]
     [("b", FeatCfg.mk "equal_width" 5 none), ("a", FeatCfg.mk "equal_width" 1 none)]
     "b" (by with_unfolding_all decide)⟩

/-! ### Claim C9 -/

theorem lookupCol_setCol_ne (t : Table) (f g : String) (col : List (Option ℚ))
    (h : f ≠ g) : lookupCol (setCol t f col) g = lookupCol t g := by
  induction t with
  | nil => rfl
  | cons p rest ih =>
    have hfold : lookupCol (setCol rest f col) g = lookupCol rest g := ih
    by_cases hpf : p.1 = f
    · have hpg : (p.1 == g) = false := by
        rw [beq_eq_false_iff_ne, hpf]
        exact h
      simp only [lookupCol, setCol, List.map_cons, List.find?_cons, if_pos hpf, hpg]
      exact hfold
    · by_cases hpg : p.1 = g
      · have hgf : ¬ g = f := fun e => h e.symm
        simp only [lookupCol, setCol, List.map_cons, List.find?_cons, if_neg hpf,
          hpg, beq_self_eq_true, if_neg hgf]
      · have h1 : (p.1 == g) = false := beq_eq_false_iff_ne.mpr hpg
        simp only [lookupCol, setCol, List.map_cons, List.find?_cons, if_neg hpf, h1]
        exact hfold

/-- Claim C9: `batch_discretize` copies the frame (`data.copy()`) and
writes only into the copy — embedded as a pure function of the input
table, which is therefore never mutated — and in a successful result
every column not named in the configuration is exactly the input column. -/
theorem c9_unlisted_columns_unchanged (data : Table) (cfg : List (String × FeatCfg))
    (res : Table) (g : String) (hg : g ∉ cfg.map (fun p => p.1))
    (h : batch_discretize data cfg = .ok res) :
    lookupCol res g = lookupCol data g := by
  unfold batch_discretize at h
  suffices H : ∀ acc, lookupCol acc g = lookupCol data g →
      batchGo data acc cfg = .ok res → lookupCol res g = lookupCol data g from
    H data rfl h
  intro acc
  clear h
  induction cfg generalizing acc with
  | nil =>
    intro ha hok
    rw [batchGo] at hok
    obtain rfl : acc = res := by injection hok
    exact ha
  | cons e rest ih =>
    intro ha hok
    obtain ⟨f, c⟩ := e
    have hrest : g ∉ rest.map (fun p => p.1) := by
      intro hmem
      exact hg (List.mem_cons_of_mem _ hmem)
    have hfg : f ≠ g := by
      intro contra
      exact hg (by simp [contra])
    rw [batchGo] at hok
    split at hok
    · split at hok
      · exact absurd hok (by simp)
      · refine ih hrest _ ?_ hok
        rw [lookupCol_setCol_ne _ _ _ _ hfg]
        exact ha
    · exact ih hrest _ ha hok

/-- Witness for C9 at concrete inputs. -/
theorem c9_unlisted_columns_unchanged_witness :
    batch_discretize [("a", [some (1 : ℚ), some 2]), ("b", [some 3])]
        [("a", FeatCfg.mk "equal_width" 2 none)] =
      .ok [("a", [some 0, some 1]), ("b", [some 3])] ∧
    lookupCol [("a", [some (0 : ℚ), some 1]), ("b", [some 3])] "b" =
      lookupCol [("a", [some (1 : ℚ), some 2]), ("b", [some 3])] "b" :=
  ⟨by with_unfolding_all decide,
   c9_unlisted_columns_unchanged [("a", [some 1, some 2]), ("b", [some 3])]
     [("a", FeatCfg.mk "equal_width" 2 none)]
     [("a", [some 0, some 1]), ("b", [some 3])] "b"
     (by with_unfolding_all decide) (by with_unfolding_all decide)⟩

/-! ### Claim C10 -/

theorem mem_firstUniques {α : Type} [DecidableEq α] (l : List α) :
    ∀ (seen : List α) (a : α), a ∈ firstUniques seen l ↔ a ∈ l ∧ a ∉ seen := by
  induction l with
  | nil => intro seen a; simp [firstUniques]
  | cons x t ih =>
    intro seen a
    unfold firstUniques
    by_cases hx : x ∈ seen
    · rw [if_pos hx, ih]
      constructor
      · rintro ⟨hat, has⟩
        exact ⟨List.mem_cons_of_mem _ hat, has⟩
      · rintro ⟨hax, has⟩
        rcases List.mem_cons.mp hax with rfl | hat
        · exact absurd hx has
        · exact ⟨hat, has⟩
    · rw [if_neg hx]
      simp only [List.mem_cons, ih]
      by_cases hax : a = x
      · subst hax
        simp [hx]
      · simp only [hax, false_or]

theorem mem_pdUnique {α : Type} [DecidableEq α] (l : List α) (a : α) :
    a ∈ pdUnique l ↔ a ∈ l := by
  rw [pdUnique, mem_firstUniques]
  simp

/-- Claim C10: `label_encode_non_numeric` stringifies each non-numeric
column first (`.astype(str)`), so a missing entry becomes the ordinary
category string `"nan"`: it receives the same regular label code as any
literal `"nan"` cell, a valid index into the encoder's class list — it is
not preserved as a missing-marker. -/
theorem c10_missing_encoded_as_nan (col : List (Option String)) (i j : ℕ)
    (hi : col.get? i = some none) (hj : col.get? j = some (some "nan")) :
    ∃ c : ℕ, (label_encode_column col).get? i = some c ∧
      (label_encode_column col).get? j = some c ∧ c < (leClasses col).length := by
  have hstri : (col.map (fun o => o.getD "nan")).get? i = some "nan" := by
    rw [List.get?_map, hi]
    rfl
  have hstrj : (col.map (fun o => o.getD "nan")).get? j = some "nan" := by
    rw [List.get?_map, hj]
    rfl
  refine ⟨(leClasses col).indexOf "nan", ?_, ?_, ?_⟩
  · rw [label_encode_column, List.get?_map, hstri]
    rfl
  · rw [label_encode_column, List.get?_map, hstrj]
    rfl
  · rw [List.indexOf_lt_length]
    rw [leClasses]
    rw [(List.perm_insertionSort _ _).mem_iff, mem_pdUnique]
    exact List.get?_mem hstri

/-- Witness for C10 at a concrete column. -/
theorem c10_missing_encoded_as_nan_witness :
    [some "b", none, some "nan"].get? 1 = some none ∧
    [some "b", none, some "nan"].get? 2 = some (some "nan") ∧
    ∃ c : ℕ, (label_encode_column [some "b", none, some "nan"]).get? 1 = some c ∧
      (label_encode_column [some "b", none, some "nan"]).get? 2 = some c ∧
      c < (leClasses [some "b", none, some "nan"]).length :=
  ⟨rfl, rfl,
   c10_missing_encoded_as_nan [some "b", none, some "nan"] 1 2 rfl rfl⟩

/-! ### Support: list minimum/maximum -/

theorem le_foldl_max (t : List ℚ) : ∀ x : ℚ, x ≤ t.foldl max x := by
  induction t with
  | nil => intro x; exact le_refl x
  | cons y t' ih =>
    intro x
    exact le_trans (le_max_left x y) (ih (max x y))

theorem foldl_max_le_of_mem (t : List ℚ) : ∀ (x a : ℚ), a ∈ t → a ≤ t.foldl max x := by
  induction t with
  | nil => intro x a ha; cases ha
  | cons y t' ih =>
    intro x a ha
    rcases List.mem_cons.mp ha with rfl | ha'
    · exact le_trans (le_max_right x a) (le_foldl_max t' (max x a))
    · exact ih (max x y) a ha'

theorem foldl_max_mem (t : List ℚ) : ∀ x : ℚ, t.foldl max x = x ∨ t.foldl max x ∈ t := by
  induction t with
  | nil => intro x; exact Or.inl rfl
  | cons y t' ih =>
    intro x
    rcases ih (max x y) with h | h
    · rcases max_choice x y with hxy | hxy
      · exact Or.inl (by rw [List.foldl_cons, h, hxy])
      · exact Or.inr (by rw [List.foldl_cons, h, hxy]; exact List.mem_cons_self _ _)
    · exact Or.inr (List.mem_cons_of_mem _ h)

theorem foldl_min_le (t : List ℚ) : ∀ x : ℚ, t.foldl min x ≤ x := by
  induction t with
  | nil => intro x; exact le_refl x
  | cons y t' ih =>
    intro x
    exact le_trans (ih (min x y)) (min_le_left x y)

theorem le_foldl_min_of_mem (t : List ℚ) : ∀ (x a : ℚ), a ∈ t → t.foldl min x ≤ a := by
  induction t with
  | nil => intro x a ha; cases ha
  | cons y t' ih =>
    intro x a ha
    rcases List.mem_cons.mp ha with rfl | ha'
    · exact le_trans (foldl_min_le t' (min x a)) (min_le_right x a)
    · exact ih (min x y) a ha'

theorem foldl_min_mem (t : List ℚ) : ∀ x : ℚ, t.foldl min x = x ∨ t.foldl min x ∈ t := by
  induction t with
  | nil => intro x; exact Or.inl rfl
  | cons y t' ih =>
    intro x
    rcases ih (min x y) with h | h
    · rcases min_choice x y with hxy | hxy
      · exact Or.inl (by rw [List.foldl_cons, h, hxy])
      · exact Or.inr (by rw [List.foldl_cons, h, hxy]; exact List.mem_cons_self _ _)
    · exact Or.inr (List.mem_cons_of_mem _ h)

theorem le_listMax (xs : List ℚ) (a : ℚ) (ha : a ∈ xs) : a ≤ listMax xs := by
  match xs with
  | [] => cases ha
  | x :: t =>
    rcases List.mem_cons.mp ha with rfl | ha'
    · exact le_foldl_max t a
    · exact foldl_max_le_of_mem t x a ha'

theorem listMax_mem (xs : List ℚ) (h : xs ≠ []) : listMax xs ∈ xs := by
  match xs with
  | [] => exact absurd rfl h
  | x :: t =>
    rcases foldl_max_mem t x with h' | h'
    · rw [listMax, h']
      exact List.mem_cons_self _ _
    · exact List.mem_cons_of_mem _ h'

theorem listMin_le (xs : List ℚ) (a : ℚ) (ha : a ∈ xs) : listMin xs ≤ a := by
  match xs with
  | [] => cases ha
  | x :: t =>
    rcases List.mem_cons.mp ha with rfl | ha'
    · exact foldl_min_le t a
    · exact le_foldl_min_of_mem t x a ha'

theorem listMin_mem (xs : List ℚ) (h : xs ≠ []) : listMin xs ∈ xs := by
  match xs with
  | [] => exact absurd rfl h
  | x :: t =>
    rcases foldl_min_mem t x with h' | h'
    · rw [listMin, h']
      exact List.mem_cons_self _ _
    · exact List.mem_cons_of_mem _ h'

theorem listMin_le_listMax (xs : List ℚ) (h : xs ≠ []) : listMin xs ≤ listMax xs :=
  listMin_le xs (listMax xs) (listMax_mem xs h)

/-! ### Support: linspace and the internal equal-width edges -/

theorem linspace_length (a b : ℚ) (k : ℕ) : (linspace a b k).length = k + 1 := by
  simp [linspace]

theorem linspace_ne_nil (a b : ℚ) (k : ℕ) : linspace a b k ≠ [] := by
  intro h
  have := linspace_length a b k
  rw [h] at this
  exact Nat.noConfusion this

theorem pairwise_lt_linspace (a b : ℚ) (k : ℕ) (hab : a < b) (hk : 1 ≤ k) :
    List.Pairwise (· < ·) (linspace a b k) := by
  unfold linspace
  refine List.Pairwise.map _ ?_ (List.pairwise_lt_range (k + 1))
  intro i j hij
  have hs : (0 : ℚ) < (b - a) / (k : ℚ) := by
    apply div_pos (sub_pos.mpr hab)
    exact_mod_cast Nat.lt_of_lt_of_le Nat.zero_lt_one hk
  have hcast : (i : ℚ) < (j : ℚ) := by exact_mod_cast hij
  have := mul_lt_mul_of_pos_right hcast hs
  calc a + (i : ℚ) * (b - a) / (k : ℚ) = a + (i : ℚ) * ((b - a) / (k : ℚ)) := by ring
    _ < a + (j : ℚ) * ((b - a) / (k : ℚ)) := by linarith
    _ = a + (j : ℚ) * (b - a) / (k : ℚ) := by ring

theorem ewBins_ne_nil (xs : List ℚ) (k : ℕ) : ewBins xs k ≠ [] := by
  unfold ewBins
  dsimp only
  split
  · exact linspace_ne_nil _ _ _
  · split
    · next heq => exact absurd heq (linspace_ne_nil _ _ _)
    · exact List.cons_ne_nil _ _

theorem pairwise_lt_ewBins (xs : List ℚ) (k : ℕ) (hk : 1 ≤ k) (hxs : xs ≠ []) :
    List.Pairwise (· < ·) (ewBins xs k) := by
  unfold ewBins
  dsimp only
  split
  · next hmm =>
    by_cases h0 : listMin xs = 0
    · rw [if_pos h0, if_pos (hmm ▸ h0)]
      refine pairwise_lt_linspace _ _ _ ?_ hk
      rw [h0, ← hmm, h0]
      norm_num
    · rw [if_neg h0, if_neg (hmm ▸ h0)]
      refine pairwise_lt_linspace _ _ _ ?_ hk
      have : (0 : ℚ) < |listMin xs| := abs_pos.mpr h0
      rw [← hmm]
      linarith
  · next hmm =>
    have hlt : listMin xs < listMax xs :=
      lt_of_le_of_ne (listMin_le_listMax xs hxs) hmm
    split
    · next heq => exact absurd heq (linspace_ne_nil _ _ _)
    · next e0 rest heq =>
      have hp : List.Pairwise (· < ·) (e0 :: rest) :=
        heq ▸ pairwise_lt_linspace _ _ _ hlt hk
      have hadj : (0 : ℚ) < (listMax xs - listMin xs) / 1000 := by
        have := sub_pos.mpr hlt
        linarith
      rcases List.pairwise_cons.mp hp with ⟨hhead, htail⟩
      refine List.pairwise_cons.mpr ⟨?_, htail⟩
      intro y hy
      have := hhead y hy
      linarith

/-! ### Support: deduplication and `binsToCuts` on duplicate-free edges -/

theorem firstUniques_eq_self {α : Type} [DecidableEq α] (l : List α) :
    ∀ seen : List α, l.Nodup → (∀ a ∈ l, a ∉ seen) → firstUniques seen l = l := by
  induction l with
  | nil => intro seen _ _; rfl
  | cons x t ih =>
    intro seen hnd hdisj
    unfold firstUniques
    rw [if_neg (hdisj x (List.mem_cons_self _ _))]
    congr 1
    refine ih (x :: seen) (List.Nodup.of_cons hnd) ?_
    intro a ha hmem
    rcases List.mem_cons.mp hmem with rfl | h'
    · exact (List.nodup_cons.mp hnd).1 ha
    · exact hdisj a (List.mem_cons_of_mem _ ha) h'

theorem pdUnique_eq_self {α : Type} [DecidableEq α] (l : List α) (h : l.Nodup) :
    pdUnique l = l :=
  firstUniques_eq_self l [] h (fun a _ hmem => by cases hmem)

theorem binsToCuts_of_nodup (d : Bool) (bins : List ℚ) (il : Bool)
    (col : List (Option ℚ)) (h : bins.Nodup) :
    binsToCuts d bins il col = .ok (applyCut bins il col) := by
  unfold binsToCuts
  dsimp only
  rw [pdUnique_eq_self bins h, if_neg]
  intro hcontra
  exact absurd hcontra.1 (lt_irrefl _)

/-! ### Claim C6 -/

/-- Claim C6 (amended): supplying, as custom edges, the exact edge array
that the equal-width strategy builds internally (the linspace grid with
its first edge lowered by 0.1% of the range — or the widened degenerate
grid when `min == max`) reproduces the equal-width bucket assignment for
every column with at least one non-missing value and every `n_bins ≥ 1`.
(With the unadjusted linspace grid, which is what the spec presents as
the equal-width edges, the assignment differs at the minimum value — see
`c6_counterexample`.) -/
theorem c6_adjusted_roundtrip (col : List (Option ℚ)) (k : ℤ) (hk : 1 ≤ k)
    (hxs : col.filterMap id ≠ []) :
    discretize_feature col "custom" k (some (ewBins (col.filterMap id) k.toNat)) =
      discretize_feature col "equal_width" k none := by
  have hcol : col ≠ [] := by
    intro e
    apply hxs
    rw [e]
    rfl
  have hk1 : 1 ≤ k.toNat := by omega
  have hpw := pairwise_lt_ewBins (col.filterMap id) k.toNat hk1 hxs
  have hne := ewBins_ne_nil (col.filterMap id) k.toNat
  rw [discretize_feature, discretize_feature]
  rw [if_neg (by decide), if_neg (by decide), if_neg (by decide),
    if_pos ⟨rfl, by simpa using hne⟩, if_pos rfl]
  rw [show (some (ewBins (col.filterMap id) k.toNat)).getD [] =
    ewBins (col.filterMap id) k.toNat from rfl]
  rw [pdCutList, if_pos (hpw.imp (fun hab => le_of_lt hab))]
  rw [pdCutScalar]
  rw [if_neg (by omega), if_neg hcol]
  dsimp only
  rw [if_neg hxs]

/-- Witness for C6 at concrete inputs. -/
theorem c6_adjusted_roundtrip_witness :
    (1 : ℤ) ≤ 5 ∧ ([some (1 : ℚ), some 2, some 3, some 4, some 5, some 6, some 7,
      some 8, some 9, some 10].filterMap id ≠ []) ∧
    discretize_feature [some 1, some 2, some 3, some 4, some 5, some 6, some 7,
      some 8, some 9, some 10] "custom" 5
      (some (ewBins ([some (1 : ℚ), some 2, some 3, some 4, some 5, some 6, some 7,
        some 8, some 9, some 10].filterMap id) (5 : ℤ).toNat)) =
    discretize_feature [some 1, some 2, some 3, some 4, some 5, some 6, some 7,
      some 8, some 9, some 10] "equal_width" 5 none :=
  ⟨by norm_num, by with_unfolding_all decide,
   c6_adjusted_roundtrip [some 1, some 2, some 3, some 4, some 5, some 6, some 7,
     some 8, some 9, some 10] 5 (by norm_num) (by with_unfolding_all decide)⟩

/-! ### Support: counting edges below a value -/

theorem countP_range_lt (m n : ℕ) :
    (List.range n).countP (fun i => decide (i < m)) = min m n := by
  induction n with
  | zero => simp
  | succ n ih =>
    rw [List.range_succ, List.countP_append, ih]
    by_cases h : n < m
    · simp [h]
      omega
    · simp [h]
      omega

theorem countP_lt_of_map_range (f : ℕ → ℚ) (n m : ℕ) (v : ℚ)
    (h : ∀ i, i < n → ((f i < v) ↔ i < m)) :
    ((List.range n).map f).countP (fun e => decide (e < v)) = min m n := by
  rw [List.countP_map]
  have hcg : ∀ i ∈ List.range n,
      (((fun e => decide (e < v)) ∘ f) i = true ↔ (fun i : ℕ => decide (i < m)) i = true) := by
    intro i hi
    simp only [Function.comp_apply, decide_eq_true_eq]
    exact h i (List.mem_range.mp hi)
  rw [List.countP_congr hcg]
  exact countP_range_lt m n

theorem cutIds_false (bins : List ℚ) (v : ℚ) :
    cutIds bins false v = bins.countP (fun e => decide (e < v)) := by
  cases bins with
  | nil => rfl
  | cons b t =>
    show (if false = true ∧ v = b then 1 else (b :: t).countP (fun e => decide (e < v))) =
      (b :: t).countP (fun e => decide (e < v))
    rw [if_neg]
    rintro ⟨hcontra, -⟩
    exact Bool.noConfusion hcontra

theorem applyCut_get? (bins : List ℚ) (il : Bool) (col : List (Option ℚ)) (i : ℕ)
    (v : ℚ) (h : col.get? i = some (some v)) :
    (applyCut bins il col).get? i =
      some (if cutIds bins il v = 0 ∨ cutIds bins il v = bins.length then none
        else some ((cutIds bins il v : ℤ) - 1)) := by
  unfold applyCut
  rw [List.get?_map, h]
  rfl

theorem mem_filterMap_of_get? (col : List (Option ℚ)) (i : ℕ) (v : ℚ)
    (h : col.get? i = some (some v)) : v ∈ col.filterMap id :=
  List.mem_filterMap.mpr ⟨some v, List.get?_mem h, rfl⟩

/-! ### Support: the equal-width edge grid in cons form, and its counts -/

theorem linspace_cons (a b : ℚ) (k : ℕ) :
    linspace a b k = a ::
      (List.range k).map (fun i : ℕ => a + ((i : ℚ) + 1) * (b - a) / (k : ℚ)) := by
  unfold linspace
  rw [List.range_succ_eq_map, List.map_cons, List.map_map]
  congr 1
  · norm_num
  · refine List.map_congr_left ?_
    intro i _
    simp only [Function.comp_apply]
    push_cast
    ring

theorem ewBins_cons (xs : List ℚ) (k : ℕ) (hmm : listMin xs ≠ listMax xs) :
    ewBins xs k = (listMin xs - (listMax xs - listMin xs) / 1000) ::
      (List.range k).map (fun i : ℕ =>
        listMin xs + ((i : ℚ) + 1) * (listMax xs - listMin xs) / (k : ℚ)) := by
  unfold ewBins
  dsimp only
  rw [if_neg hmm, linspace_cons]

theorem ewBins_length (xs : List ℚ) (k : ℕ) : (ewBins xs k).length = k + 1 := by
  unfold ewBins
  dsimp only
  split
  · rw [linspace_length]
  · split
    · next heq => exact absurd heq (linspace_ne_nil _ _ _)
    · next e0 rest heq =>
      have hl := linspace_length (listMin xs) (listMax xs) k
      rw [heq] at hl
      simpa using hl

/-- With `min < max` and `n_bins = k ≥ 1`, exactly one internal edge
(the lowered first one) lies strictly below the minimum value. -/
theorem ewBins_countP_min (xs : List ℚ) (k : ℕ) (hk : 1 ≤ k)
    (hlt : listMin xs < listMax xs) :
    (ewBins xs k).countP (fun e => decide (e < listMin xs)) = 1 := by
  rw [ewBins_cons xs k (ne_of_lt hlt), List.countP_cons]
  have hs : (0 : ℚ) < (listMax xs - listMin xs) / (k : ℚ) := by
    apply div_pos (by linarith)
    exact_mod_cast hk
  have h0 : ∀ i, i < k →
      ((listMin xs + ((i : ℚ) + 1) * (listMax xs - listMin xs) / (k : ℚ) < listMin xs)
        ↔ i < 0) := by
    intro i _
    have hpos : (0 : ℚ) < ((i : ℚ) + 1) * ((listMax xs - listMin xs) / (k : ℚ)) := by
      apply mul_pos (by positivity) hs
    constructor
    · intro hcontra
      rw [mul_div_assoc] at hcontra
      exfalso
      linarith
    · intro hcontra
      exact absurd hcontra (Nat.not_lt_zero i)
  rw [countP_lt_of_map_range _ _ 0 _ h0]
  have hh : listMin xs - (listMax xs - listMin xs) / 1000 < listMin xs := by
    have : (0 : ℚ) < (listMax xs - listMin xs) / 1000 := by
      apply div_pos (by linarith)
      norm_num
    linarith
  simp [hh]

/-- With `min < max` and `n_bins = k ≥ 1`, all `k` edges except the last
(which equals the maximum) lie strictly below the maximum value. -/
theorem ewBins_countP_max (xs : List ℚ) (k : ℕ) (hk : 1 ≤ k)
    (hlt : listMin xs < listMax xs) :
    (ewBins xs k).countP (fun e => decide (e < listMax xs)) = k := by
  rw [ewBins_cons xs k (ne_of_lt hlt), List.countP_cons]
  have hkq : (0 : ℚ) < (k : ℚ) := by exact_mod_cast hk
  have hs : (0 : ℚ) < (listMax xs - listMin xs) / (k : ℚ) := by
    apply div_pos (by linarith) hkq
  have hmx : listMin xs + (k : ℚ) * ((listMax xs - listMin xs) / (k : ℚ)) = listMax xs := by
    rw [mul_div_cancel₀ _ (ne_of_gt hkq)]
    ring
  have h0 : ∀ i, i < k →
      ((listMin xs + ((i : ℚ) + 1) * (listMax xs - listMin xs) / (k : ℚ) < listMax xs)
        ↔ i < k - 1) := by
    intro i hik
    have hi1 : ((i : ℚ) + 1) ≤ (k : ℚ) := by
      have : (i : ℚ) + 1 ≤ (k : ℚ) := by exact_mod_cast hik
      exact this
    constructor
    · intro hlt'
      by_contra hcontra
      have hik' : i = k - 1 := by omega
      have : ((i : ℚ) + 1) = (k : ℚ) := by
        subst hik'
        rw [Nat.cast_sub hk]
        push_cast
        ring
      rw [show ((i : ℚ) + 1) * (listMax xs - listMin xs) / (k : ℚ) =
        ((i : ℚ) + 1) * ((listMax xs - listMin xs) / (k : ℚ)) from by ring, this, hmx] at hlt'
      exact lt_irrefl _ hlt'
    · intro hlt'
      have hq : (i : ℚ) + 1 < (k : ℚ) := by
        have : i + 1 < k := by omega
        exact_mod_cast this
      have := mul_lt_mul_of_pos_right hq hs
      calc listMin xs + ((i : ℚ) + 1) * (listMax xs - listMin xs) / (k : ℚ)
          = listMin xs + ((i : ℚ) + 1) * ((listMax xs - listMin xs) / (k : ℚ)) := by ring
        _ < listMin xs + (k : ℚ) * ((listMax xs - listMin xs) / (k : ℚ)) := by linarith
        _ = listMax xs := hmx
  rw [countP_lt_of_map_range _ _ (k - 1) _ h0]
  have hh : listMin xs - (listMax xs - listMin xs) / 1000 < listMax xs := by
    have : (0 : ℚ) < (listMax xs - listMin xs) / 1000 := by
      apply div_pos (by linarith)
      norm_num
    linarith
  simp [hh]
  omega

/-- With `min == max` and `n_bins = k ≥ 1`, exactly `(k+1)/2` edges of the
widened degenerate grid lie strictly below the (unique) data value. -/
theorem ewBins_countP_const (xs : List ℚ) (k : ℕ) (hk : 1 ≤ k)
    (hmm : listMin xs = listMax xs) :
    (ewBins xs k).countP (fun e => decide (e < listMin xs)) = (k + 1) / 2 := by
  have main : ∀ d : ℚ, 0 < d →
      (linspace (listMin xs - d) (listMin xs + d) k).countP
        (fun e => decide (e < listMin xs)) = (k + 1) / 2 := by
    intro d hd
    rw [linspace_cons, List.countP_cons]
    have hkq : (0 : ℚ) < (k : ℚ) := by exact_mod_cast hk
    have hstep : listMin xs + d - (listMin xs - d) = 2 * d := by ring
    have h0 : ∀ i, i < k →
        ((listMin xs - d + ((i : ℚ) + 1) * (listMin xs + d - (listMin xs - d)) / (k : ℚ)
          < listMin xs) ↔ i < (k - 1) / 2) := by
      intro i _
      rw [hstep]
      have hiff1 : (listMin xs - d + ((i : ℚ) + 1) * (2 * d) / (k : ℚ) < listMin xs)
          ↔ ((i : ℚ) + 1) * (2 * d) < (k : ℚ) * d := by
        have hstep2 : (listMin xs - d + ((i : ℚ) + 1) * (2 * d) / (k : ℚ) < listMin xs)
            ↔ ((i : ℚ) + 1) * (2 * d) / (k : ℚ) < d := by
          constructor <;> intro h' <;> linarith
        rw [hstep2, div_lt_iff hkq]
        constructor <;> intro h' <;> linarith
      have hiff2 : ((i : ℚ) + 1) * (2 * d) < (k : ℚ) * d ↔ 2 * (i + 1) < k := by
        constructor
        · intro h'
          have h2 : (2 * ((i : ℚ) + 1)) * d < (k : ℚ) * d := by linarith
          have := (mul_lt_mul_right hd).mp h2
          exact_mod_cast this
        · intro h'
          have hq : (2 * ((i : ℚ) + 1)) < (k : ℚ) := by exact_mod_cast h'
          nlinarith
      rw [hiff1, hiff2]
      omega
    rw [countP_lt_of_map_range _ _ ((k - 1) / 2) _ h0]
    have hh : listMin xs - d < listMin xs := by linarith
    simp [hh]
    omega
  unfold ewBins
  dsimp only
  rw [if_pos hmm, ← hmm]
  by_cases h0 : listMin xs = 0
  · rw [if_pos h0, if_pos h0]
    exact main (1 / 1000) (by norm_num)
  · rw [if_neg h0, if_neg h0]
    exact main (|listMin xs| / 1000) (by
      apply div_pos (abs_pos.mpr h0)
      norm_num)

/-- Some internal edge lies strictly below the data minimum
(the lowered/widened first edge). -/
theorem ewBins_exists_lt_min (xs : List ℚ) (k : ℕ) :
    ∃ e ∈ ewBins xs k, e < listMin xs := by
  by_cases hmm : listMin xs = listMax xs
  · unfold ewBins
    dsimp only
    rw [if_pos hmm, ← hmm]
    by_cases h0 : listMin xs = 0
    · rw [if_pos h0, if_pos h0, linspace_cons]
      exact ⟨_, List.mem_cons_self _ _, by linarith⟩
    · rw [if_neg h0, if_neg h0, linspace_cons]
      refine ⟨_, List.mem_cons_self _ _, ?_⟩
      have : (0 : ℚ) < |listMin xs| := abs_pos.mpr h0
      linarith
  · rw [ewBins_cons xs k hmm]
    refine ⟨_, List.mem_cons_self _ _, ?_⟩
    have hxs' : xs ≠ [] := by
      intro hnil
      apply hmm
      rw [hnil]
      rfl
    have hlt : listMin xs < listMax xs :=
      lt_of_le_of_ne (listMin_le_listMax xs hxs') hmm
    have : (0 : ℚ) < (listMax xs - listMin xs) / 1000 := by
      apply div_pos (by linarith)
      norm_num
    linarith

/-- Some internal edge is at least the data maximum (the last edge). -/
theorem ewBins_exists_ge_max (xs : List ℚ) (k : ℕ) (hk : 1 ≤ k) :
    ∃ e ∈ ewBins xs k, listMax xs ≤ e := by
  have hkq : (0 : ℚ) < (k : ℚ) := by exact_mod_cast hk
  by_cases hmm : listMin xs = listMax xs
  · have main : ∀ a d : ℚ, 0 < d → listMin xs ≤ a + d →
        ∃ e ∈ linspace a (a + 2 * d) k, listMin xs ≤ e := by
      intro a d hd hle
      refine ⟨a + (k : ℚ) * (a + 2 * d - a) / (k : ℚ), ?_, ?_⟩
      · unfold linspace
        refine List.mem_map.mpr ⟨k, List.mem_range.mpr (Nat.lt_succ_self k), rfl⟩
      · have : a + (k : ℚ) * (a + 2 * d - a) / (k : ℚ) = a + 2 * d := by
          field_simp
        rw [this]
        linarith
    unfold ewBins
    dsimp only
    rw [if_pos hmm, ← hmm]
    by_cases h0 : listMin xs = 0
    · rw [if_pos h0, if_pos h0]
      have hrw : listMin xs + 1 / 1000 = (listMin xs - 1 / 1000) + 2 * (1 / 1000) := by ring
      rw [hrw]
      exact main (listMin xs - 1 / 1000) (1 / 1000) (by norm_num) (by linarith)
    · rw [if_neg h0, if_neg h0]
      have habs : (0 : ℚ) < |listMin xs| / 1000 := by
        apply div_pos (abs_pos.mpr h0)
        norm_num
      have hrw : listMin xs + |listMin xs| / 1000 =
          (listMin xs - |listMin xs| / 1000) + 2 * (|listMin xs| / 1000) := by ring
      rw [hrw]
      exact main (listMin xs - |listMin xs| / 1000) (|listMin xs| / 1000) habs
        (by linarith)
  · rw [ewBins_cons xs k hmm]
    refine ⟨listMin xs + (((k - 1 : ℕ) : ℚ) + 1) * (listMax xs - listMin xs) / (k : ℚ),
      ?_, ?_⟩
    · refine List.mem_cons_of_mem _ ?_
      exact List.mem_map.mpr ⟨k - 1, List.mem_range.mpr (by omega), rfl⟩
    · have hcast : ((k - 1 : ℕ) : ℚ) + 1 = (k : ℚ) := by
        rw [Nat.cast_sub hk]
        push_cast
        ring
      rw [hcast, show listMin xs + (k : ℚ) * (listMax xs - listMin xs) / (k : ℚ) =
        listMin xs + (k : ℚ) * ((listMax xs - listMin xs) / (k : ℚ)) from by ring,
        mul_div_cancel₀ _ (ne_of_gt hkq)]
      linarith

theorem ewBins_countP_pos (xs : List ℚ) (k : ℕ) (v : ℚ) (hv : listMin xs ≤ v) :
    0 < (ewBins xs k).countP (fun e => decide (e < v)) := by
  rcases ewBins_exists_lt_min xs k with ⟨e, hmem, hlt⟩
  refine List.countP_pos.mpr ⟨e, hmem, ?_⟩
  exact decide_eq_true_eq.mpr (lt_of_lt_of_le hlt hv)

theorem ewBins_countP_le (xs : List ℚ) (k : ℕ) (hk : 1 ≤ k)
    (v : ℚ) (hv : v ≤ listMax xs) :
    (ewBins xs k).countP (fun e => decide (e < v)) ≤ k := by
  rcases ewBins_exists_ge_max xs k hk with ⟨e, hmem, hge⟩
  have hne : (ewBins xs k).countP (fun e => decide (e < v)) ≠ (ewBins xs k).length := by
    intro heq
    have hall := List.countP_eq_length.mp heq e hmem
    have h1 : e < v := of_decide_eq_true hall
    have h2 : v ≤ e := le_trans hv hge
    exact absurd h1 (not_lt.mpr h2)
  have hle := List.countP_le_length (l := ewBins xs k) (p := fun e => decide (e < v))
  rw [ewBins_length] at hne hle
  omega

/-! ### Claim C3 -/

/-- Claim C3 (amended): for every column with at least one non-missing
value and every `n_bins = k ≥ 1`, equal-width discretization assigns each
non-missing value a bucket id in `[0, k-1]`; when `min < max` the minimum
value gets bucket 0 and the maximum bucket `k-1`; when `min == max` every
value is assigned the middle bucket `(k+1)/2 - 1` (integer division), not
bucket 0 — see `c3_counterexample`. -/
theorem c3_equal_width_buckets (col : List (Option ℚ)) (k : ℤ) (hk : 1 ≤ k)
    (hxs : col.filterMap id ≠ []) :
    ∃ out, discretize_feature col "equal_width" k none = .ok out ∧
      (∀ i v, col.get? i = some (some v) →
        ∃ b : ℤ, out.get? i = some (some b) ∧ 0 ≤ b ∧ b ≤ k - 1) ∧
      (listMin (col.filterMap id) < listMax (col.filterMap id) →
        ∀ i, col.get? i = some (some (listMin (col.filterMap id))) →
          out.get? i = some (some 0)) ∧
      (listMin (col.filterMap id) < listMax (col.filterMap id) →
        ∀ i, col.get? i = some (some (listMax (col.filterMap id))) →
          out.get? i = some (some (k - 1))) ∧
      (listMin (col.filterMap id) = listMax (col.filterMap id) →
        ∀ i v, col.get? i = some (some v) →
          out.get? i = some (some ((((k.toNat + 1) / 2 : ℕ) : ℤ) - 1))) := by
  have hcol : col ≠ [] := fun e => hxs (by rw [e]; rfl)
  have hkk : 1 ≤ k.toNat := by omega
  have hkc : ((k.toNat : ℤ)) = k := Int.toNat_of_nonneg (by omega)
  refine ⟨applyCut (ewBins (col.filterMap id) k.toNat) false col, ?_, ?_, ?_, ?_, ?_⟩
  · rw [discretize_feature, if_pos rfl, pdCutScalar, if_neg (by omega), if_neg hcol]
    dsimp only
    rw [if_neg hxs]
    exact binsToCuts_of_nodup _ _ _ _
      ((pairwise_lt_ewBins _ _ hkk hxs).imp (fun hab => ne_of_lt hab))
  · intro i v hiv
    have hvmem : v ∈ col.filterMap id := mem_filterMap_of_get? col i v hiv
    have hv1 := listMin_le _ v hvmem
    have hv2 := le_listMax _ v hvmem
    have hids1 : 0 < (ewBins (col.filterMap id) k.toNat).countP
        (fun e => decide (e < v)) := ewBins_countP_pos _ _ v hv1
    have hids2 : (ewBins (col.filterMap id) k.toNat).countP
        (fun e => decide (e < v)) ≤ k.toNat := ewBins_countP_le _ _ hkk v hv2
    rw [applyCut_get? _ _ _ _ _ hiv, cutIds_false, ewBins_length]
    rw [if_neg (by omega)]
    exact ⟨_, rfl, by omega, by omega⟩
  · intro hlt i hiv
    rw [applyCut_get? _ _ _ _ _ hiv, cutIds_false,
      ewBins_countP_min _ _ hkk hlt, ewBins_length]
    rw [if_neg (by omega)]
    norm_num
  · intro hlt i hiv
    rw [applyCut_get? _ _ _ _ _ hiv, cutIds_false,
      ewBins_countP_max _ _ hkk hlt, ewBins_length]
    rw [if_neg (by omega)]
    rw [hkc]
  · intro hmm i v hiv
    have hvmem : v ∈ col.filterMap id := mem_filterMap_of_get? col i v hiv
    have hveq : v = listMin (col.filterMap id) := by
      have h1 := listMin_le _ v hvmem
      have h2 := le_listMax _ v hvmem
      rw [← hmm] at h2
      exact le_antisymm h2 h1
    rw [applyCut_get? _ _ _ _ _ hiv, cutIds_false, ewBins_length, hveq,
      ewBins_countP_const _ _ hkk hmm]
    rw [if_neg (by omega)]

/-- Witness for C3 at a concrete column. -/
theorem c3_equal_width_buckets_witness :
    ∃ out, discretize_feature [some (1 : ℚ), some 3] "equal_width" 2 none = .ok out ∧
      (∀ i v, [some (1 : ℚ), some 3].get? i = some (some v) →
        ∃ b : ℤ, out.get? i = some (some b) ∧ 0 ≤ b ∧ b ≤ 2 - 1) ∧
      (listMin ([some (1 : ℚ), some 3].filterMap id) <
          listMax ([some (1 : ℚ), some 3].filterMap id) →
        ∀ i, [some (1 : ℚ), some 3].get? i =
            some (some (listMin ([some (1 : ℚ), some 3].filterMap id))) →
          out.get? i = some (some 0)) ∧
      (listMin ([some (1 : ℚ), some 3].filterMap id) <
          listMax ([some (1 : ℚ), some 3].filterMap id) →
        ∀ i, [some (1 : ℚ), some 3].get? i =
            some (some (listMax ([some (1 : ℚ), some 3].filterMap id))) →
          out.get? i = some (some (2 - 1))) ∧
      (listMin ([some (1 : ℚ), some 3].filterMap id) =
          listMax ([some (1 : ℚ), some 3].filterMap id) →
        ∀ i v, [some (1 : ℚ), some 3].get? i = some (some v) →
          out.get? i = some (some (((((2 : ℤ).toNat + 1) / 2 : ℕ) : ℤ) - 1))) :=
  c3_equal_width_buckets [some 1, some 3] 2 (by norm_num) (by with_unfolding_all decide)

/-! ### Support: sorted columns and quantile endpoints -/

theorem qfloor_zero : qfloor (0 : ℚ) = 0 := by
  with_unfolding_all decide

theorem qfloor_natCast (m : ℕ) : qfloor ((m : ℕ) : ℚ) = (m : ℤ) := by
  unfold qfloor
  rw [Rat.num_natCast, Rat.den_natCast]
  rw [show (((1 : ℕ) : ℤ)) = 1 from rfl]
  exact Int.fdiv_one _

theorem quantileOf_zero (s : List ℚ) (hs : s ≠ []) : quantileOf s 0 = s.getD 0 0 := by
  unfold quantileOf
  dsimp only
  rw [zero_mul, qfloor_zero]
  have hlen : 1 ≤ s.length := List.length_pos.mpr hs
  by_cases h : Int.toNat 0 + 1 < s.length
  · rw [if_pos h]
    push_cast
    ring_nf
  · rw [if_neg h]
    have : s.length = 1 := by
      simp only [Int.toNat_zero] at h
      omega
    rw [this]

theorem quantileOf_one (s : List ℚ) (hs : s ≠ []) :
    quantileOf s 1 = s.getD (s.length - 1) 0 := by
  unfold quantileOf
  dsimp only
  have hlen : 1 ≤ s.length := List.length_pos.mpr hs
  have hcast : (1 : ℚ) * ((s.length : ℚ) - 1) = ((s.length - 1 : ℕ) : ℚ) := by
    rw [Nat.cast_sub hlen]
    push_cast
    ring
  rw [hcast, qfloor_natCast]
  have htn : ((s.length - 1 : ℕ) : ℤ).toNat = s.length - 1 := by omega
  rw [htn, if_neg (by omega)]

theorem sortQ_ne_nil (xs : List ℚ) (h : xs ≠ []) : sortQ xs ≠ [] := by
  intro hnil
  apply h
  have hperm := List.perm_insertionSort (· ≤ · : ℚ → ℚ → Prop) xs
  rw [sortQ] at hnil
  rw [hnil] at hperm
  exact hperm.symm.eq_nil ▸ (List.Perm.nil_eq hperm).symm

theorem mem_sortQ (xs : List ℚ) (a : ℚ) : a ∈ sortQ xs ↔ a ∈ xs :=
  (List.perm_insertionSort (· ≤ · : ℚ → ℚ → Prop) xs).mem_iff

theorem sortQ_sorted (xs : List ℚ) : (sortQ xs).Sorted (· ≤ ·) :=
  List.sorted_insertionSort (· ≤ · : ℚ → ℚ → Prop) xs

theorem sortQ_getD_zero (xs : List ℚ) (h : xs ≠ []) :
    (sortQ xs).getD 0 0 = listMin xs := by
  have hne := sortQ_ne_nil xs h
  obtain ⟨y, t, hyt⟩ : ∃ y t, sortQ xs = y :: t := by
    cases hs : sortQ xs with
    | nil => exact absurd hs hne
    | cons y t => exact ⟨y, t, rfl⟩
  have hsort := sortQ_sorted xs
  rw [hyt] at hsort
  rw [hyt]
  show y = listMin xs
  have hmemy : y ∈ xs := (mem_sortQ xs y).mp (hyt ▸ List.mem_cons_self _ _)
  refine le_antisymm ?_ (listMin_le xs y hmemy)
  have hminmem : listMin xs ∈ sortQ xs := (mem_sortQ xs _).mpr (listMin_mem xs h)
  rw [hyt] at hminmem
  rcases List.mem_cons.mp hminmem with heq | hmem
  · rw [heq]
  · exact (List.sorted_cons.mp hsort).1 _ hmem

theorem sorted_le_getD_last (l : List ℚ) (hl : l.Sorted (· ≤ ·)) :
    ∀ y ∈ l, y ≤ l.getD (l.length - 1) 0 := by
  induction l with
  | nil => intro y hy; cases hy
  | cons x t ih =>
    rcases List.sorted_cons.mp hl with ⟨hx, ht⟩
    intro y hy
    cases t with
    | nil =>
      rcases List.mem_cons.mp hy with rfl | h'
      · exact le_refl y
      · cases h'
    | cons z t' =>
      have hshift : ((x :: z :: t').getD ((x :: z :: t').length - 1) 0) =
          ((z :: t').getD ((z :: t').length - 1) 0) := by
        simp only [List.length_cons, Nat.succ_sub_one]
        rw [List.getD_cons_succ]
      rw [hshift]
      rcases List.mem_cons.mp hy with rfl | h'
      · have hmem : (z :: t').getD ((z :: t').length - 1) 0 ∈ z :: t' := by
          have hlt : (z :: t').length - 1 < (z :: t').length := by
            simp only [List.length_cons]
            omega
          rw [List.getD_eq_getElem?_getD, List.getElem?_eq_getElem hlt]
          exact Option.getD_some ▸ List.getElem_mem hlt
        exact hx _ hmem
      · exact ih ht y h'

theorem sortQ_getD_last (xs : List ℚ) (h : xs ≠ []) :
    (sortQ xs).getD ((sortQ xs).length - 1) 0 = listMax xs := by
  have hne := sortQ_ne_nil xs h
  have hlen : 1 ≤ (sortQ xs).length := List.length_pos.mpr hne
  have hmem : (sortQ xs).getD ((sortQ xs).length - 1) 0 ∈ sortQ xs := by
    have hlt : (sortQ xs).length - 1 < (sortQ xs).length := by omega
    rw [List.getD_eq_getElem?_getD, List.getElem?_eq_getElem hlt]
    exact Option.getD_some ▸ List.getElem_mem hlt
  refine le_antisymm ?_ ?_
  · exact le_listMax xs _ ((mem_sortQ xs _).mp hmem)
  · refine sorted_le_getD_last _ (sortQ_sorted xs) _ ?_
    exact (mem_sortQ xs _).mpr (listMax_mem xs h)

theorem two_le_length_of_two_mem (l : List ℚ) (a b : ℚ) (ha : a ∈ l) (hb : b ∈ l)
    (hab : a ≠ b) : 2 ≤ l.length := by
  match l with
  | [] => cases ha
  | [x] =>
    rw [List.mem_singleton] at ha hb
    exact absurd (ha.trans hb.symm) hab
  | x :: y :: t =>
    simp only [List.length_cons]
    omega

theorem listMin_lt_listMax_of_two (xs : List ℚ) (a b : ℚ) (ha : a ∈ xs)
    (hb : b ∈ xs) (hab : a ≠ b) : listMin xs < listMax xs := by
  rcases lt_or_eq_of_le (listMin_le_listMax xs (List.ne_nil_of_mem ha)) with h | h
  · exact h
  · exfalso
    have haa : a = listMin xs :=
      le_antisymm (h ▸ le_listMax xs a ha) (listMin_le xs a ha)
    have hbb : b = listMin xs :=
      le_antisymm (h ▸ le_listMax xs b hb) (listMin_le xs b hb)
    exact hab (haa.trans hbb.symm)

/-! ### Support: `applyCut` pointwise and the missing-marker mask -/

theorem cutIds_true_cons (b0 : ℚ) (t : List ℚ) (v : ℚ) :
    cutIds (b0 :: t) true v =
      if v = b0 then 1 else (b0 :: t).countP (fun e => decide (e < v)) := by
  show (if true = true ∧ v = b0 then 1
    else (b0 :: t).countP (fun e => decide (e < v))) = _
  by_cases h : v = b0
  · rw [if_pos ⟨rfl, h⟩, if_pos h]
  · rw [if_neg (fun hc => h hc.2), if_neg h]

theorem applyCut_get?_missing (bins : List ℚ) (il : Bool) (col : List (Option ℚ))
    (i : ℕ) (h : col.get? i = some none) :
    (applyCut bins il col).get? i = some none := by
  unfold applyCut
  rw [List.get?_map, h]
  rfl

theorem applyCut_get?_oob (bins : List ℚ) (il : Bool) (col : List (Option ℚ))
    (i : ℕ) (h : col.get? i = none) :
    (applyCut bins il col).get? i = none := by
  unfold applyCut
  rw [List.get?_map, h]
  rfl

/-- If no non-missing value is masked, `applyCut` has missing-markers at
exactly the missing input positions. -/
theorem applyCut_mask (col : List (Option ℚ)) (B : List ℚ) (il : Bool)
    (hsome : ∀ v, v ∈ col.filterMap id →
      cutIds B il v ≠ 0 ∧ cutIds B il v ≠ B.length) :
    (applyCut B il col).map Option.isNone = col.map Option.isNone := by
  apply List.ext
  intro i
  rw [List.get?_map, List.get?_map]
  cases hoc : col.get? i with
  | none =>
    rw [applyCut_get?_oob _ _ _ _ hoc]
    rfl
  | some o =>
    cases o with
    | none =>
      rw [applyCut_get?_missing _ _ _ _ hoc]
      rfl
    | some v =>
      rcases hsome v (mem_filterMap_of_get? col i v hoc) with ⟨h1, h2⟩
      rw [applyCut_get? _ _ _ _ _ hoc, if_neg (not_or.mpr ⟨h1, h2⟩)]
      rfl

theorem binsToCuts_drop (bins : List ℚ) (il : Bool) (col : List (Option ℚ)) :
    binsToCuts true bins il col = .ok (applyCut (pdUnique bins) il col) ∨
    binsToCuts true bins il col = .ok (applyCut bins il col) := by
  unfold binsToCuts
  dsimp only
  by_cases h : (pdUnique bins).length < bins.length ∧ bins.length ≠ 2
  · rw [if_pos h, if_pos rfl]
    exact Or.inl rfl
  · rw [if_neg h]
    exact Or.inr rfl

theorem bool_or_true_left (a b : Bool) (ha : a = true) : (a || b) = true := by
  rw [ha]
  rfl

theorem bool_or_true_right (a b : Bool) (hb : b = true) : (a || b) = true := by
  rw [hb]
  cases a <;> rfl

theorem bool_or_false_of (a b : Bool) (ha : a ≠ true) (hb : b ≠ true) :
    (a || b) = false := by
  cases a
  · cases b
    · rfl
    · exact absurd rfl hb
  · exact absurd rfl ha

theorem pdUnique_cons {α : Type} [DecidableEq α] (x : α) (t : List α) :
    pdUnique (x :: t) = x :: firstUniques [x] t := by
  show (if x ∈ ([] : List α) then firstUniques [] t else x :: firstUniques [x] t) =
    x :: firstUniques [x] t
  rw [if_neg (List.not_mem_nil x)]

/-- For quantile bins headed by the data minimum and containing the data
maximum, no non-missing value is masked (given two distinct edges). -/
theorem qcut_nomask (col : List (Option ℚ)) (B : List ℚ) (hne : B ≠ [])
    (hhead : B.headD 0 = listMin (col.filterMap id))
    (hmx : listMax (col.filterMap id) ∈ B)
    (hlt : listMin (col.filterMap id) < listMax (col.filterMap id)) :
    ∀ v, v ∈ col.filterMap id → cutIds B true v ≠ 0 ∧ cutIds B true v ≠ B.length := by
  obtain ⟨b0, t', rfl⟩ : ∃ b0 t', B = b0 :: t' := by
    cases B with
    | nil => exact absurd rfl hne
    | cons b t => exact ⟨b, t, rfl⟩
  rw [List.headD_cons] at hhead
  subst hhead
  intro v hv
  have hlen : 2 ≤ (listMin (col.filterMap id) :: t').length :=
    two_le_length_of_two_mem _ _ _ (List.mem_cons_self _ _) hmx (ne_of_lt hlt)
  rw [cutIds_true_cons]
  by_cases hveq : v = listMin (col.filterMap id)
  · rw [if_pos hveq]
    simp only [List.length_cons] at hlen ⊢
    omega
  · rw [if_neg hveq]
    have hv1 : listMin (col.filterMap id) < v :=
      lt_of_le_of_ne (listMin_le _ v hv) (Ne.symm hveq)
    constructor
    · have hpos : 0 < (listMin (col.filterMap id) :: t').countP
          (fun e => decide (e < v)) :=
        List.countP_pos.mpr ⟨_, List.mem_cons_self _ _, decide_eq_true_eq.mpr hv1⟩
      omega
    · intro heq
      have hall := List.countP_eq_length.mp heq (listMax (col.filterMap id)) hmx
      have h1 : listMax (col.filterMap id) < v := of_decide_eq_true hall
      have h2 := le_listMax _ v hv
      linarith

/-! ### Claim C5 -/

/-- Claim C5 (amended): missing-value handling per strategy.
  * `equal_width` (column with at least one non-missing value,
    `n_bins ≥ 1`) and `equal_frequency` (column with two distinct
    non-missing values, `n_bins ≥ 1`) exclude missing values from edge
    computation and place the missing-marker at exactly the missing
    input positions, positionally aligned (an all-missing column instead
    makes `pd.cut` raise on its duplicate NaN edges for `n_bins ≥ 2`);
  * `custom` places the marker at every missing position and additionally
    at non-missing values outside the supplied edge range (at or below
    every edge, or above every edge);
  * `kmeans` does not handle missing values at all: any missing value
    makes the call raise (sklearn rejects NaN), producing no output —
    see `c5_counterexample`. -/
theorem c5_missing_value_handling :
    (∀ (col : List (Option ℚ)) (k : ℤ), 1 ≤ k → col.filterMap id ≠ [] →
      ∃ out, discretize_feature col "equal_width" k none = .ok out ∧
        out.map Option.isNone = col.map Option.isNone) ∧
    (∀ (col : List (Option ℚ)) (q : ℤ), 1 ≤ q →
      (∃ a ∈ col.filterMap id, ∃ b ∈ col.filterMap id, a ≠ b) →
      ∃ out, discretize_feature col "equal_frequency" q none = .ok out ∧
        out.map Option.isNone = col.map Option.isNone) ∧
    (∀ (col : List (Option ℚ)) (k : ℤ) (bs : List ℚ) (out : List (Option ℤ)),
      discretize_feature col "custom" k (some bs) = .ok out →
      out.map Option.isNone = col.map (fun o =>
        match o with
        | none => true
        | some v => bs.all (fun e => decide (v ≤ e)) ||
            bs.all (fun e => decide (e < v)))) ∧
    (∀ (col : List (Option ℚ)) (k : ℤ), (col.any (fun o => o.isNone)) = true →
      discretize_feature col "kmeans" k none = .error .nanInput) := by
  refine ⟨?_, ?_, ?_, ?_⟩
  · -- equal_width
    intro col k hk hxs
    have hcol : col ≠ [] := fun e => hxs (by rw [e]; rfl)
    have hkk : 1 ≤ k.toNat := by omega
    refine ⟨applyCut (ewBins (col.filterMap id) k.toNat) false col, ?_, ?_⟩
    · rw [discretize_feature, if_pos rfl, pdCutScalar, if_neg (by omega),
        if_neg hcol]
      dsimp only
      rw [if_neg hxs]
      exact binsToCuts_of_nodup _ _ _ _
        ((pairwise_lt_ewBins _ _ hkk hxs).imp (fun h => ne_of_lt h))
    · refine applyCut_mask col _ false ?_
      intro v hv
      constructor
      · rw [cutIds_false]
        have := ewBins_countP_pos (col.filterMap id) k.toNat v (listMin_le _ v hv)
        omega
      · rw [cutIds_false, ewBins_length]
        have := ewBins_countP_le (col.filterMap id) k.toNat hkk v
          (le_listMax _ v hv)
        omega
  · -- equal_frequency
    intro col q hq hdist
    obtain ⟨a, ha, b, hb, hab⟩ := hdist
    have hxs : col.filterMap id ≠ [] := List.ne_nil_of_mem ha
    have hlt := listMin_lt_listMax_of_two _ a b ha hb hab
    have hsne : sortQ (col.filterMap id) ≠ [] := sortQ_ne_nil _ hxs
    have hq0 : ¬ q = 0 := by omega
    have hqQ : (0 : ℚ) < (q : ℚ) := by exact_mod_cast hq
    have hprobs : (List.range (q.toNat + 1)).map (fun i : ℕ => (i : ℚ) / (q : ℚ)) =
        (0 : ℚ) :: (List.range q.toNat).map
          (fun i : ℕ => ((i + 1 : ℕ) : ℚ) / (q : ℚ)) := by
      rw [List.range_succ_eq_map, List.map_cons, List.map_map]
      congr 1
      norm_num
    have hbins_head :
        ((List.range (q.toNat + 1)).map (fun i : ℕ => (i : ℚ) / (q : ℚ))).map
          (quantileOf (sortQ (col.filterMap id))) =
        listMin (col.filterMap id) ::
          ((List.range q.toNat).map
            (fun i : ℕ => ((i + 1 : ℕ) : ℚ) / (q : ℚ))).map
            (quantileOf (sortQ (col.filterMap id))) := by
      rw [hprobs, List.map_cons]
      congr 1
      rw [quantileOf_zero _ hsne, sortQ_getD_zero _ hxs]
    have hmx : listMax (col.filterMap id) ∈
        ((List.range (q.toNat + 1)).map (fun i : ℕ => (i : ℚ) / (q : ℚ))).map
          (quantileOf (sortQ (col.filterMap id))) := by
      refine List.mem_map.mpr ⟨(q.toNat : ℚ) / (q : ℚ), ?_, ?_⟩
      · exact List.mem_map.mpr ⟨q.toNat, List.mem_range.mpr (Nat.lt_succ_self _), rfl⟩
      · have hqtn : ((q.toNat : ℚ)) = (q : ℚ) := by
          have h1 := Int.toNat_of_nonneg (show (0 : ℤ) ≤ q by omega)
          exact_mod_cast congrArg (fun z : ℤ => (z : ℚ)) h1
        rw [show (q.toNat : ℚ) / (q : ℚ) = 1 from by
          rw [hqtn]; exact div_self (ne_of_gt hqQ)]
        rw [quantileOf_one _ hsne, sortQ_getD_last _ hxs]
    rw [discretize_feature, if_neg (by decide), if_pos rfl, pdQcut,
      if_neg (by omega)]
    dsimp only
    rw [if_neg hxs, if_neg hq0]
    rcases binsToCuts_drop
        (((List.range (q.toNat + 1)).map (fun i : ℕ => (i : ℚ) / (q : ℚ))).map
          (quantileOf (sortQ (col.filterMap id)))) true col with hc | hc
    · refine ⟨_, hc, applyCut_mask col _ true ?_⟩
      refine qcut_nomask col _ ?_ ?_ ((mem_pdUnique _ _).mpr hmx) hlt
      · rw [hbins_head, pdUnique_cons]
        exact List.cons_ne_nil _ _
      · rw [hbins_head, pdUnique_cons]
        rfl
    · refine ⟨_, hc, applyCut_mask col _ true ?_⟩
      refine qcut_nomask col _ ?_ ?_ hmx hlt
      · rw [hbins_head]
        exact List.cons_ne_nil _ _
      · rw [hbins_head]
        rfl
  · -- custom
    intro col k bs out h
    rw [discretize_feature, if_neg (by decide), if_neg (by decide),
      if_neg (by decide)] at h
    by_cases hbs : bs = []
    · rw [if_neg (fun hc => by
        rw [hbs] at hc
        exact hc.2 rfl)] at h
      exact absurd h (by simp)
    · rw [if_pos ⟨rfl, by simpa using hbs⟩] at h
      rw [pdCutList] at h
      split at h
      · unfold binsToCuts at h
        dsimp only at h
        split at h
        · rw [if_neg (fun hc => Bool.noConfusion hc)] at h
          exact absurd h (by simp)
        · have hout : applyCut bs false col = out := by
            injection h
          subst hout
          apply List.ext
          intro i
          rw [List.get?_map, List.get?_map]
          cases hoc : col.get? i with
          | none =>
            rw [applyCut_get?_oob _ _ _ _ hoc]
            rfl
          | some o =>
            cases o with
            | none =>
              rw [applyCut_get?_missing _ _ _ _ hoc]
              rfl
            | some v =>
              rw [applyCut_get? _ _ _ _ _ hoc]
              show some (if cutIds bs false v = 0 ∨ cutIds bs false v = bs.length
                then (none : Option ℤ) else some _).isNone = some _
              congr 1
              rw [cutIds_false]
              by_cases hcnd : bs.countP (fun e => decide (e < v)) = 0 ∨
                  bs.countP (fun e => decide (e < v)) = bs.length
              · rw [if_pos hcnd]
                symm
                rcases hcnd with h0 | hl
                · refine bool_or_true_left _ _ ?_
                  refine List.all_eq_true.mpr ?_
                  intro e he
                  have := List.countP_eq_zero.mp h0 e he
                  simp only [decide_eq_true_eq] at this ⊢
                  exact not_lt.mp this
                · refine bool_or_true_right _ _ ?_
                  refine List.all_eq_true.mpr ?_
                  intro e he
                  exact List.countP_eq_length.mp hl e he
              · rw [if_neg hcnd]
                symm
                refine bool_or_false_of _ _ ?_ ?_
                · intro hall
                  apply hcnd
                  left
                  refine List.countP_eq_zero.mpr ?_
                  intro e he
                  have := List.all_eq_true.mp hall e he
                  simp only [decide_eq_true_eq] at this ⊢
                  exact not_lt.mpr this
                · intro hall
                  apply hcnd
                  right
                  refine List.countP_eq_length.mpr ?_
                  intro e he
                  exact List.all_eq_true.mp hall e he
      · exact absurd h (by simp)
  · -- kmeans
    intro col k h
    rw [discretize_feature, if_neg (by decide), if_neg (by decide), if_pos rfl,
      kbinsKmeans, if_pos h]

/-- Witness for C5 at concrete inputs, one per strategy. -/
theorem c5_missing_value_handling_witness :
    (∃ out, discretize_feature [some (1 : ℚ), none, some 2] "equal_width" 3 none =
        .ok out ∧
      out.map Option.isNone = [some (1 : ℚ), none, some 2].map Option.isNone) ∧
    (∃ out, discretize_feature [some (1 : ℚ), none, some 2] "equal_frequency" 2 none =
        .ok out ∧
      out.map Option.isNone = [some (1 : ℚ), none, some 2].map Option.isNone) ∧
    ([some (0 : ℤ), none, none].map Option.isNone =
      [some (1 : ℚ), none, some 5].map (fun o =>
        match o with
        | none => true
        | some v => [(0 : ℚ), 2].all (fun e => decide (v ≤ e)) ||
            [(0 : ℚ), 2].all (fun e => decide (e < v)))) ∧
    (discretize_feature [some (1 : ℚ), none] "kmeans" 2 none = .error .nanInput) :=
  ⟨c5_missing_value_handling.1 [some 1, none, some 2] 3 (by norm_num)
      (by with_unfolding_all decide),
   c5_missing_value_handling.2.1 [some 1, none, some 2] 2 (by norm_num)
      ⟨1, by with_unfolding_all decide, 2, by with_unfolding_all decide, by norm_num⟩,
   c5_missing_value_handling.2.2.1 [some 1, none, some 5] 5 [0, 2]
      [some 0, none, none] (by with_unfolding_all decide),
   c5_missing_value_handling.2.2.2 [some 1, none] 2 (by with_unfolding_all decide)⟩

end Preprocessing
